import Mathlib

/-!
Verification development for the window-aichat streaming request gateway.

This file gives a shallow embedding of the algorithmic core of the
repository and proves (or refutes) the frozen specification claims
against it.  The embedded components are:

* the sliding-window rate limiter (`src/window_aichat/db/limits.py`),
* the context window builder (`src/window_aichat/core/tokens.py` and
  `src/window_aichat/core/context.py`),
* the embedding similarity index (`_cosine`, `upsert_embedding`,
  `search_embeddings` and `EmbeddingItem.set_vector` in
  `src/window_aichat/api/server.py` / `src/window_aichat/db/models.py`),
* the websocket chat handler (`websocket_chat` in
  `src/window_aichat/api/server.py`), modelled as a sequential
  transition system (the handler awaits each stream task inline, so a
  connection processes inbound messages strictly one at a time).

Machine reals from the Python source are modelled as rationals for the
stored data and as real numbers for derived scores; wall-clock seconds
are modelled as integers.
-/

/-! ### Rate limiter (src/window_aichat/db/limits.py) -/

/-- Configuration of the sliding-window rate limiter
(`RateLimitConfig` in `limits.py`). -/
structure RateLimitConfig where
  window_seconds : Int
  max_requests : Nat
deriving Repr, DecidableEq

/-- Result triple of `RateLimiter.allow`: `(admitted, remaining, reset_in)`. -/
structure AllowResult where
  admitted : Bool
  remaining : Nat
  reset_in : Int
deriving Repr, DecidableEq

/-- The `while dq and dq[0] < window_start: dq.popleft()` loop of
`RateLimiter.allow`: pop timestamps from the front while they are older
than the window start. -/
def pruneFront (windowStart : Int) : List Int → List Int
  | [] => []
  | t :: ts => if t < windowStart then pruneFront windowStart ts else t :: ts

/-- Embedding of `RateLimiter.allow` (`limits.py`, lines 18-31).  The
per-key deque is passed explicitly, `time.time()` is passed as `now`.
Returns the result triple together with the updated deque. -/
def RateLimiter.allow (cfg : RateLimitConfig) (dq : List Int) (now : Int) :
    AllowResult × List Int :=
  let windowStart := now - cfg.window_seconds
  let dq2 := pruneFront windowStart dq
  if cfg.max_requests ≤ dq2.length then
    let reset : Int :=
      match dq2 with
      | [] => cfg.window_seconds
      | t :: _ => max 0 (t - windowStart)
    (⟨false, 0, reset⟩, dq2)
  else
    (⟨true, cfg.max_requests - (dq2.length + 1), cfg.window_seconds⟩, dq2 ++ [now])

/-- Iterated calls of `RateLimiter.allow` on one key, threading the deque;
returns the admission decisions in order together with the final deque. -/
def RateLimiter.allowSeq (cfg : RateLimitConfig) (dq : List Int) :
    List Int → List Bool × List Int
  | [] => ([], dq)
  | t :: ts =>
    let r := RateLimiter.allow cfg dq t
    let rest := RateLimiter.allowSeq cfg r.2 ts
    (r.1.admitted :: rest.1, rest.2)

lemma pruneFront_eq_filter (windowStart : Int) :
    ∀ dq : List Int, dq.Sorted (· ≤ ·) →
      pruneFront windowStart dq = dq.filter (fun t => windowStart ≤ t) := by
  intro dq
  induction dq with
  | nil => intro _; rfl
  | cons t ts ih =>
    intro hs
    rw [List.sorted_cons] at hs
    by_cases h : t < windowStart
    · rw [pruneFront, if_pos h, ih hs.2, List.filter_cons_of_neg]
      simp [h, not_le.mpr h]
    · push_neg at h
      have hall : ∀ x ∈ ts, windowStart ≤ x := fun x hx => le_trans h (hs.1 x hx)
      rw [pruneFront, if_neg (not_lt.mpr h), List.filter_cons_of_pos (by simpa using h)]
      have : ts.filter (fun t => windowStart ≤ t) = ts := by
        apply List.filter_eq_self.mpr
        intro x hx
        simpa using hall x hx
      rw [this]

lemma pruneFront_eq_self (windowStart : Int) (dq : List Int)
    (h : ∀ t ∈ dq, windowStart ≤ t) : pruneFront windowStart dq = dq := by
  cases dq with
  | nil => rfl
  | cons t ts =>
    rw [pruneFront, if_neg]
    exact not_lt.mpr (h t (List.mem_cons_self t ts))

lemma pruneFront_eq_nil (windowStart : Int) (dq : List Int)
    (h : ∀ t ∈ dq, t < windowStart) : pruneFront windowStart dq = [] := by
  induction dq with
  | nil => rfl
  | cons t ts ih =>
    rw [pruneFront, if_pos (h t (List.mem_cons_self t ts))]
    exact ih fun x hx => h x (List.mem_cons_of_mem t hx)

lemma pruneFront_subset (windowStart : Int) :
    ∀ dq : List Int, ∀ x ∈ pruneFront windowStart dq, x ∈ dq := by
  intro dq
  induction dq with
  | nil => intro x hx; exact absurd hx (by simp [pruneFront])
  | cons t ts ih =>
    intro x hx
    rw [pruneFront] at hx
    by_cases h : t < windowStart
    · rw [if_pos h] at hx
      exact List.mem_cons_of_mem t (ih x hx)
    · rw [if_neg h] at hx
      exact hx

/-- Per-call behaviour of `RateLimiter.allow` as the spec describes it:
old timestamps are discarded, then the call is admitted (appending `now`
and reporting `maxRequests` minus the new queue length) iff the retained
queue is shorter than `maxRequests`; otherwise it is rejected and
`resetInSeconds` is the number of seconds until the oldest retained
timestamp exits the window, at most `windowSeconds`. -/
def allowCallSpec (cfg : RateLimitConfig) (dq : List Int) (now : Int) : Prop :=
  let pruned := dq.filter (fun t => now - cfg.window_seconds ≤ t)
  (pruned.length < cfg.max_requests →
    RateLimiter.allow cfg dq now =
      (⟨true, cfg.max_requests - (pruned.length + 1), cfg.window_seconds⟩,
       pruned ++ [now])) ∧
  (cfg.max_requests ≤ pruned.length →
    (RateLimiter.allow cfg dq now).1.admitted = false ∧
    (RateLimiter.allow cfg dq now).1.remaining = 0 ∧
    (RateLimiter.allow cfg dq now).2 = pruned ∧
    ∃ t0 rest, pruned = t0 :: rest ∧
      (RateLimiter.allow cfg dq now).1.reset_in = t0 + cfg.window_seconds - now ∧
      (RateLimiter.allow cfg dq now).1.reset_in ≤ cfg.window_seconds)

lemma allow_call_spec (cfg : RateLimitConfig) (dq : List Int) (now : Int)
    (hsorted : dq.Sorted (· ≤ ·)) (hpast : ∀ t ∈ dq, t ≤ now)
    (hmax : 0 < cfg.max_requests) :
    allowCallSpec cfg dq now := by
  have hfil := pruneFront_eq_filter (now - cfg.window_seconds) dq hsorted
  constructor
  · intro hlt
    rw [RateLimiter.allow]
    simp only [hfil]
    rw [if_neg (not_le.mpr hlt)]
  · intro hge
    have hne : dq.filter (fun t => now - cfg.window_seconds ≤ t) ≠ [] := by
      intro hnil
      rw [hnil] at hge
      simp only [List.length_nil] at hge
      omega
    obtain ⟨t0, rest, hcons⟩ := List.exists_cons_of_ne_nil hne
    have ht0mem : t0 ∈ dq.filter (fun t => now - cfg.window_seconds ≤ t) := by
      rw [hcons]; exact List.mem_cons_self _ _
    have ht0dq : t0 ∈ dq := List.mem_of_mem_filter ht0mem
    have ht0ge : now - cfg.window_seconds ≤ t0 := by
      have := List.of_mem_filter ht0mem
      simpa using this
    have ht0le : t0 ≤ now := hpast t0 ht0dq
    have hallow : RateLimiter.allow cfg dq now =
        (⟨false, 0, max 0 (t0 - (now - cfg.window_seconds))⟩, t0 :: rest) := by
      rw [RateLimiter.allow]
      simp only [hfil, hcons]
      rw [if_pos (hcons ▸ hge)]
    rw [hallow]
    refine ⟨rfl, rfl, hcons.symm, t0, rest, hcons, ?_, ?_⟩
    · show max 0 (t0 - (now - cfg.window_seconds)) = t0 + cfg.window_seconds - now
      rw [max_eq_right (by omega)]
      ring
    · show max 0 (t0 - (now - cfg.window_seconds)) ≤ cfg.window_seconds
      rw [max_eq_right (by omega)]
      omega

lemma allowSeq_admits_all (cfg : RateLimitConfig) :
    ∀ (ts q : List Int),
      q.Sorted (· ≤ ·) →
      (∀ a ∈ q, ∀ b ∈ ts, a ≤ b) →
      (∀ a ∈ q, ∀ b ∈ ts, b - cfg.window_seconds ≤ a) →
      ts.Sorted (· ≤ ·) →
      (∀ a ∈ ts, ∀ b ∈ ts, a - b ≤ cfg.window_seconds) →
      q.length + ts.length ≤ cfg.max_requests →
      RateLimiter.allowSeq cfg q ts = (List.replicate ts.length true, q ++ ts) := by
  intro ts
  induction ts with
  | nil =>
    intro q _ _ _ _ _ _
    simp [RateLimiter.allowSeq]
  | cons t ts ih =>
    intro q hq hqle hqwin hts hspan hlen
    have hprune : pruneFront (t - cfg.window_seconds) q = q := by
      apply pruneFront_eq_self
      intro a ha
      have := hqwin a ha t (List.mem_cons_self t ts)
      omega
    have hqlen : q.length < cfg.max_requests := by
      simp only [List.length_cons] at hlen
      omega
    have hallow : RateLimiter.allow cfg q t =
        (⟨true, cfg.max_requests - (q.length + 1), cfg.window_seconds⟩, q ++ [t]) := by
      rw [RateLimiter.allow]
      simp only [hprune]
      rw [if_neg (not_le.mpr hqlen)]
    rw [RateLimiter.allowSeq]
    simp only [hallow]
    rw [List.sorted_cons] at hts
    have hrec := ih (q ++ [t])
      (by
        apply List.pairwise_append.mpr
        refine ⟨hq, List.sorted_singleton t, ?_⟩
        intro a ha b hb
        rw [List.mem_singleton] at hb
        have h1 := hqle a ha t (List.mem_cons_self t ts)
        omega)
      (by
        intro a ha b hb
        rw [List.mem_append, List.mem_singleton] at ha
        rcases ha with ha | ha
        · exact hqle a ha b (List.mem_cons_of_mem t hb)
        · have h1 := hts.1 b hb
          omega)
      (by
        intro a ha b hb
        rw [List.mem_append, List.mem_singleton] at ha
        rcases ha with ha | ha
        · exact hqwin a ha b (List.mem_cons_of_mem t hb)
        · have h1 := hspan b (List.mem_cons_of_mem t hb) t (List.mem_cons_self t ts)
          omega)
      hts.2
      (fun a ha b hb => hspan a (List.mem_cons_of_mem t ha) b (List.mem_cons_of_mem t hb))
      (by
        rw [List.length_append, List.length_singleton]
        simp only [List.length_cons] at hlen
        omega)
    rw [hrec]
    simp [List.replicate_succ, List.append_assoc]

lemma allowSeq_append (cfg : RateLimitConfig) (l1 : List Int) :
    ∀ (q : List Int) (l2 : List Int),
      RateLimiter.allowSeq cfg q (l1 ++ l2) =
        ((RateLimiter.allowSeq cfg q l1).1 ++
           (RateLimiter.allowSeq cfg (RateLimiter.allowSeq cfg q l1).2 l2).1,
         (RateLimiter.allowSeq cfg (RateLimiter.allowSeq cfg q l1).2 l2).2) := by
  induction l1 with
  | nil => intro q l2; simp [RateLimiter.allowSeq]
  | cons t l1 ih =>
    intro q l2
    rw [List.cons_append, RateLimiter.allowSeq, RateLimiter.allowSeq, ih]
    rfl

lemma allowSeq_queue_subset (cfg : RateLimitConfig) :
    ∀ (ts q : List Int), ∀ x ∈ (RateLimiter.allowSeq cfg q ts).2, x ∈ q ∨ x ∈ ts := by
  intro ts
  induction ts with
  | nil =>
    intro q x hx
    exact Or.inl (by simpa [RateLimiter.allowSeq] using hx)
  | cons t ts ih =>
    intro q x hx
    rw [RateLimiter.allowSeq] at hx
    have hx2 := ih (RateLimiter.allow cfg q t).2 x hx
    have hq2 : ∀ y ∈ (RateLimiter.allow cfg q t).2, y ∈ q ∨ y = t := by
      intro y hy
      rw [RateLimiter.allow] at hy
      by_cases h : cfg.max_requests ≤ (pruneFront (t - cfg.window_seconds) q).length
      · rw [if_pos h] at hy
        exact Or.inl (pruneFront_subset _ q y hy)
      · rw [if_neg h] at hy
        simp only [List.mem_append, List.mem_singleton] at hy
        rcases hy with hy | hy
        · exact Or.inl (pruneFront_subset _ q y hy)
        · exact Or.inr hy
    rcases hx2 with hx2 | hx2
    · rcases hq2 x hx2 with h | h
      · exact Or.inl h
      · exact Or.inr (h ▸ List.mem_cons_self t ts)
    · exact Or.inr (List.mem_cons_of_mem t hx2)

/-- C4: on each `allow(key)` call, timestamps older than
`now - windowSeconds` are discarded first; if the remaining queue is
strictly shorter than `maxRequests` the call is admitted, `now` is
appended and `remaining = maxRequests -` the new queue length, otherwise
the call is rejected and `resetInSeconds` equals the number of seconds
until the oldest retained entry exits the window (hence at most
`windowSeconds`).  Consequently any `maxRequests + 1` calls with a fresh
key all inside `windowSeconds` end with a rejection, and once time has
advanced past the window a subsequent call is admitted again. -/
theorem rateLimiter_allow_correct
    (cfg : RateLimitConfig) (dq : List Int) (now : Int)
    (hsorted : dq.Sorted (· ≤ ·)) (hpast : ∀ t ∈ dq, t ≤ now)
    (hmax : 0 < cfg.max_requests)
    (ts : List Int) (hlen : ts.length = cfg.max_requests + 1)
    (hts : ts.Sorted (· ≤ ·))
    (hspan : ∀ a ∈ ts, ∀ b ∈ ts, a - b ≤ cfg.window_seconds)
    (later : Int) (hlater : ∀ t ∈ ts, t + cfg.window_seconds < later) :
    allowCallSpec cfg dq now ∧
    (RateLimiter.allowSeq cfg [] ts).1 =
      List.replicate cfg.max_requests true ++ [false] ∧
    (RateLimiter.allow cfg (RateLimiter.allowSeq cfg [] ts).2 later).1.admitted = true := by
  have hne : ts ≠ [] := by
    intro h
    rw [h] at hlen
    simp only [List.length_nil] at hlen
    omega
  have hdecomp := List.dropLast_append_getLast hne
  have hLsub : ts.dropLast.Sublist ts := List.dropLast_sublist ts
  have hLsorted : ts.dropLast.Sorted (· ≤ ·) := List.Pairwise.sublist hLsub hts
  have hLlen : ts.dropLast.length = cfg.max_requests := by
    rw [List.length_dropLast, hlen]
    omega
  have hspanL : ∀ a ∈ ts.dropLast, ∀ b ∈ ts.dropLast, a - b ≤ cfg.window_seconds :=
    fun a ha b hb => hspan a (hLsub.subset ha) b (hLsub.subset hb)
  have hseqL : RateLimiter.allowSeq cfg [] ts.dropLast =
      (List.replicate cfg.max_requests true, ts.dropLast) := by
    have h := allowSeq_admits_all cfg ts.dropLast [] List.sorted_nil
      (by intro a ha; exact absurd ha (List.not_mem_nil a))
      (by intro a ha; exact absurd ha (List.not_mem_nil a))
      hLsorted hspanL (by rw [hLlen]; simp)
    rw [List.nil_append, hLlen] at h
    exact h
  have hlastmem : ts.getLast hne ∈ ts := List.getLast_mem hne
  have hpruneL : pruneFront (ts.getLast hne - cfg.window_seconds) ts.dropLast = ts.dropLast := by
    apply pruneFront_eq_self
    intro x hx
    have := hspan (ts.getLast hne) hlastmem x (hLsub.subset hx)
    omega
  have hadm : (RateLimiter.allow cfg ts.dropLast (ts.getLast hne)).1.admitted = false := by
    rw [RateLimiter.allow]
    simp only [hpruneL]
    rw [if_pos (le_of_eq hLlen.symm)]
  refine ⟨allow_call_spec cfg dq now hsorted hpast hmax, ?_, ?_⟩
  · conv_lhs => rw [← hdecomp]
    rw [allowSeq_append, hseqL]
    simp [RateLimiter.allowSeq, hadm]
  · have hsub := allowSeq_queue_subset cfg ts []
    have hallnil :
        pruneFront (later - cfg.window_seconds) (RateLimiter.allowSeq cfg [] ts).2 = [] := by
      apply pruneFront_eq_nil
      intro x hx
      rcases hsub x hx with h | h
      · exact absurd h (List.not_mem_nil x)
      · have := hlater x h
        omega
    rw [RateLimiter.allow]
    simp only [hallnil]
    rw [if_neg (by simp only [List.length_nil]; omega)]

/-- Witness for the C4 theorem, instantiated at
`windowSeconds = 60`, `maxRequests = 2`, a sorted past queue `[5, 10]`
at `now = 12`, the call sequence `[0, 30, 60]` on a fresh key, and a
later call at time `121`. -/
theorem rateLimiter_allow_correct_witness :
    ([5, 10] : List Int).Sorted (· ≤ ·) ∧
    (allowCallSpec ⟨60, 2⟩ [5, 10] 12 ∧
     (RateLimiter.allowSeq ⟨60, 2⟩ [] [0, 30, 60]).1 = List.replicate 2 true ++ [false] ∧
     (RateLimiter.allow ⟨60, 2⟩ (RateLimiter.allowSeq ⟨60, 2⟩ [] [0, 30, 60]).2 121).1.admitted
       = true) :=
  ⟨by decide,
   rateLimiter_allow_correct ⟨60, 2⟩ [5, 10] 12 (by decide) (by decide) (by decide)
     [0, 30, 60] (by decide) (by decide) (by decide) 121 (by decide)⟩

/-! ### Context window builder (src/window_aichat/core/context.py and
src/window_aichat/core/tokens.py) -/

/-- One chat message dictionary with its `role` and `content` values. -/
structure Msg where
  role : String
  content : String
deriving Repr, DecidableEq

/-- Embedding of `PromptTemplate.format_messages` (`context.py`, lines
16-35): optional system turn (when the template's system prompt is a
non-empty string), then the history, then the new user input as the
final user turn. -/
def PromptTemplate.format_messages (system_prompt : String) (history : List Msg)
    (user_input : String) : List Msg :=
  (if system_prompt = "" then [] else [⟨"system", system_prompt⟩]) ++
    history ++ [⟨"user", user_input⟩]

/-- Embedding of `Tokenizer.count_message_tokens` (`tokens.py`, lines
22-31): 4 tokens per message plus the token counts of every value of the
message dictionary (its role and its content), plus 2 priming tokens.
The underlying `count_tokens` text estimator (tiktoken) is pluggable and
passed as `tok`. -/
def Tokenizer.count_message_tokens (tok : String → Nat) (msgs : List Msg) : Nat :=
  (msgs.map (fun m => 4 + tok m.role + tok m.content)).sum + 2

/-- The leading system turn retained by `Tokenizer.trim_context`
(`if messages[0].get("role") == "system"`), if any. -/
def sysPart : List Msg → List Msg
  | [] => []
  | m0 :: _ => if m0.role = "system" then [m0] else []

/-- The messages that `Tokenizer.trim_context` scans for trimming: the
input without its leading system turn (when present). -/
def restPart : List Msg → List Msg
  | [] => []
  | m0 :: rest0 => if m0.role = "system" then rest0 else m0 :: rest0

/-- The greedy loop of `Tokenizer.trim_context`: walk the candidate
messages (already reversed, most recent first), include each message
while the running total stays within the budget, and stop at the first
message that would exceed it (`break`). -/
def greedyTake (tok : String → Nat) (maxT : Nat) : Nat → List Msg → List Msg
  | _, [] => []
  | acc, m :: rest =>
    let c := Tokenizer.count_message_tokens tok [m]
    if maxT < acc + c then []
    else m :: greedyTake tok maxT (acc + c) rest

/-- Embedding of `Tokenizer.trim_context` (`tokens.py`, lines 33-64):
return the messages unchanged when they fit the budget, otherwise keep a
leading system turn and greedily re-add messages from most recent to
oldest, reassembling in chronological order. -/
def Tokenizer.trim_context (tok : String → Nat) (msgs : List Msg) (maxT : Nat) :
    List Msg :=
  match msgs with
  | [] => []
  | m0 :: rest0 =>
    if Tokenizer.count_message_tokens tok (m0 :: rest0) ≤ maxT then m0 :: rest0
    else
      sysPart (m0 :: rest0) ++
        (greedyTake tok maxT
          (Tokenizer.count_message_tokens tok (sysPart (m0 :: rest0)))
          ((restPart (m0 :: rest0)).reverse)).reverse

/-- The context window builder used by the gateway
(`build_prompt_from_history` in `server.py`, lines 74-77, before the
final string join): format the history plus the new message, then trim
to the token budget. -/
def build_prompt_messages (tok : String → Nat) (system_prompt : String)
    (history : List Msg) (user_input : String) (maxT : Nat) : List Msg :=
  Tokenizer.trim_context tok
    (PromptTemplate.format_messages system_prompt history user_input) maxT

lemma greedyTake_isPrefix (tok : String → Nat) (maxT : Nat) :
    ∀ (l : List Msg) (acc : Nat), ∃ l2, l = greedyTake tok maxT acc l ++ l2 := by
  intro l
  induction l with
  | nil => intro acc; exact ⟨[], rfl⟩
  | cons m rest ih =>
    intro acc
    rw [greedyTake]
    by_cases h : maxT < acc + Tokenizer.count_message_tokens tok [m]
    · rw [if_pos h]
      exact ⟨m :: rest, rfl⟩
    · rw [if_neg h]
      obtain ⟨l2, hl2⟩ := ih (acc + Tokenizer.count_message_tokens tok [m])
      exact ⟨l2, by rw [List.cons_append, ← hl2]⟩

lemma greedyTake_total_le (tok : String → Nat) (maxT : Nat) :
    ∀ (l : List Msg) (acc : Nat), greedyTake tok maxT acc l ≠ [] →
      acc + ((greedyTake tok maxT acc l).map
        (fun m => Tokenizer.count_message_tokens tok [m])).sum ≤ maxT := by
  intro l
  induction l with
  | nil => intro acc h; exact absurd rfl h
  | cons m rest ih =>
    intro acc h
    rw [greedyTake] at h ⊢
    by_cases hc : maxT < acc + Tokenizer.count_message_tokens tok [m]
    · rw [if_pos hc] at h
      exact absurd rfl h
    · rw [if_neg hc] at h ⊢
      by_cases hg : greedyTake tok maxT (acc + Tokenizer.count_message_tokens tok [m]) rest = []
      · rw [hg]
        simp only [List.map_cons, List.map_nil, List.sum_cons, List.sum_nil]
        omega
      · have := ih (acc + Tokenizer.count_message_tokens tok [m]) hg
        simp only [List.map_cons, List.sum_cons]
        omega

lemma count_append (tok : String → Nat) (l1 l2 : List Msg) :
    Tokenizer.count_message_tokens tok (l1 ++ l2) =
      Tokenizer.count_message_tokens tok l1 +
        (l2.map (fun m => 4 + tok m.role + tok m.content)).sum := by
  rw [Tokenizer.count_message_tokens, Tokenizer.count_message_tokens]
  rw [List.map_append, List.sum_append]
  omega

lemma count_single (tok : String → Nat) (m : Msg) :
    Tokenizer.count_message_tokens tok [m] = 4 + tok m.role + tok m.content + 2 := by
  rw [Tokenizer.count_message_tokens]
  simp

lemma sysPart_append_restPart (msgs : List Msg) :
    msgs = sysPart msgs ++ restPart msgs := by
  cases msgs with
  | nil => rfl
  | cons m0 rest0 =>
    rw [sysPart, restPart]
    by_cases h : m0.role = "system"
    · rw [if_pos h, if_pos h]
      rfl
    · rw [if_neg h, if_neg h]
      rfl

lemma trim_context_shape (tok : String → Nat) (maxT : Nat) (msgs : List Msg) :
    ∃ k, Tokenizer.trim_context tok msgs maxT =
      sysPart msgs ++ (restPart msgs).drop k := by
  cases msgs with
  | nil => exact ⟨0, rfl⟩
  | cons m0 rest0 =>
    rw [Tokenizer.trim_context]
    by_cases hfit : Tokenizer.count_message_tokens tok (m0 :: rest0) ≤ maxT
    · rw [if_pos hfit]
      refine ⟨0, ?_⟩
      rw [List.drop_zero]
      exact sysPart_append_restPart (m0 :: rest0)
    · rw [if_neg hfit]
      obtain ⟨l2, hl2⟩ := greedyTake_isPrefix tok maxT ((restPart (m0 :: rest0)).reverse)
        (Tokenizer.count_message_tokens tok (sysPart (m0 :: rest0)))
      refine ⟨l2.reverse.length, ?_⟩
      congr 1
      have h3 := congrArg List.reverse hl2
      rw [List.reverse_reverse, List.reverse_append] at h3
      conv_rhs => rw [h3]
      rw [List.drop_left]

lemma trim_context_budget (tok : String → Nat) (maxT : Nat) (msgs : List Msg) :
    Tokenizer.count_message_tokens tok (Tokenizer.trim_context tok msgs maxT) ≤ maxT ∨
      Tokenizer.trim_context tok msgs maxT = sysPart msgs := by
  cases msgs with
  | nil => exact Or.inr rfl
  | cons m0 rest0 =>
    rw [Tokenizer.trim_context]
    by_cases hfit : Tokenizer.count_message_tokens tok (m0 :: rest0) ≤ maxT
    · rw [if_pos hfit]
      exact Or.inl hfit
    · rw [if_neg hfit]
      by_cases hg : greedyTake tok maxT
          (Tokenizer.count_message_tokens tok (sysPart (m0 :: rest0)))
          ((restPart (m0 :: rest0)).reverse) = []
      · rw [hg]
        right
        rw [List.reverse_nil, List.append_nil]
      · left
        have htot := greedyTake_total_le tok maxT ((restPart (m0 :: rest0)).reverse)
          (Tokenizer.count_message_tokens tok (sysPart (m0 :: rest0))) hg
        rw [count_append]
        rw [List.map_reverse, List.sum_reverse]
        have hcost : ∀ l : List Msg,
            (l.map (fun m => Tokenizer.count_message_tokens tok [m])).sum =
              (l.map (fun m => 4 + tok m.role + tok m.content)).sum + 2 * l.length := by
          intro l
          induction l with
          | nil => simp
          | cons a l ih =>
            rw [List.map_cons, List.sum_cons, List.map_cons, List.sum_cons, ih, count_single,
              List.length_cons]
            ring
        rw [hcost] at htot
        omega

lemma trim_context_sublist (tok : String → Nat) (maxT : Nat) (msgs : List Msg) :
    (Tokenizer.trim_context tok msgs maxT).Sublist msgs := by
  obtain ⟨k, hk⟩ := trim_context_shape tok maxT msgs
  rw [hk]
  conv_rhs => rw [sysPart_append_restPart msgs]
  exact List.Sublist.append_left (List.drop_sublist k (restPart msgs)) (sysPart msgs)

lemma getLast?_drop_of_ne_nil (l : List Msg) (k : Nat) (h : l.drop k ≠ []) :
    (l.drop k).getLast? = l.getLast? := by
  conv_rhs => rw [← List.take_append_drop k l]
  rw [List.getLast?_append_of_ne_nil _ h]

lemma format_restPart_getLast (system_prompt : String) (history : List Msg)
    (user_input : String) :
    (restPart (PromptTemplate.format_messages system_prompt history user_input)).getLast? =
      some ⟨"user", user_input⟩ := by
  rw [PromptTemplate.format_messages]
  by_cases hsp : system_prompt = ""
  · rw [if_pos hsp, List.nil_append]
    cases history with
    | nil =>
      rw [List.nil_append]
      simp [restPart]
    | cons h0 htl =>
      rw [List.cons_append, restPart]
      by_cases h : h0.role = "system"
      · rw [if_pos h]
        exact List.getLast?_concat htl
      · rw [if_neg h]
        rw [← List.cons_append]
        exact List.getLast?_concat (h0 :: htl)
  · rw [if_neg hsp, List.singleton_append, List.cons_append, restPart, if_pos rfl]
    exact List.getLast?_concat history

/-- C5 (amended claim, corrected from the spec): for every history, new
message and budget, the context window builder returns a sequence whose
estimated token count is at most `budget.maxTokens`, or else exactly the
retained leading system part (the system turn when present, otherwise
the empty sequence) — when even the most recent turn does not fit, the
new message itself is dropped rather than returned.  No truncation of a
single turn's content is ever performed: the output is a subsequence of
the formatted input turns. -/
theorem buildPrompt_budget_or_system_only (tok : String → Nat) (system_prompt : String)
    (history : List Msg) (user_input : String) (maxT : Nat) :
    (Tokenizer.count_message_tokens tok
        (build_prompt_messages tok system_prompt history user_input maxT) ≤ maxT ∨
      build_prompt_messages tok system_prompt history user_input maxT =
        sysPart (PromptTemplate.format_messages system_prompt history user_input)) ∧
    (build_prompt_messages tok system_prompt history user_input maxT).Sublist
      (PromptTemplate.format_messages system_prompt history user_input) :=
  ⟨trim_context_budget tok maxT _, trim_context_sublist tok maxT _⟩

/-- C5 counterexample: with the pluggable token estimator
`String.length`, a 40 character system prompt, empty history, new
message `"hi"` and positive budget `maxTokens = 5`, the builder returns
the system turn alone: the result's estimated token count is 52 > 5 and
it is not the minimal system-plus-new-message pair, refuting the
claimed disjunction (the new message is dropped, not returned). -/
theorem buildPrompt_budget_counterexample :
    build_prompt_messages String.length "aaaaaaaaaaaaaaaaaaaaaaaaaaaaaaaaaaaaaaaa" [] "hi" 5 =
      [⟨"system", "aaaaaaaaaaaaaaaaaaaaaaaaaaaaaaaaaaaaaaaa"⟩] ∧
    ¬ (Tokenizer.count_message_tokens String.length
        (build_prompt_messages String.length
          "aaaaaaaaaaaaaaaaaaaaaaaaaaaaaaaaaaaaaaaa" [] "hi" 5) ≤ 5) ∧
    build_prompt_messages String.length "aaaaaaaaaaaaaaaaaaaaaaaaaaaaaaaaaaaaaaaa" [] "hi" 5 ≠
      [⟨"system", "aaaaaaaaaaaaaaaaaaaaaaaaaaaaaaaaaaaaaaaa"⟩, ⟨"user", "hi"⟩] := by
  refine ⟨?_, ?_, ?_⟩ <;> decide

/-- C6 (amended claim, corrected from the spec): the builder preserves
chronological order — the output is the retained leading system part
followed by a contiguous suffix of the remaining turns, so trimming
removes only the oldest turns after the retained leading system turn,
greedily keeping the most recent ones; a leading system turn present in
the input is always present in the output; and whenever any turn beyond
the system part is kept at all, the new message is the final user turn
of the output (when nothing fits, the new message too is dropped). -/
theorem buildPrompt_order (tok : String → Nat) (system_prompt : String)
    (history : List Msg) (user_input : String) (maxT : Nat) :
    (∃ k, build_prompt_messages tok system_prompt history user_input maxT =
      sysPart (PromptTemplate.format_messages system_prompt history user_input) ++
        (restPart (PromptTemplate.format_messages system_prompt history user_input)).drop k) ∧
    (∀ m, (PromptTemplate.format_messages system_prompt history user_input).head? = some m →
      m.role = "system" →
      m ∈ build_prompt_messages tok system_prompt history user_input maxT) ∧
    (build_prompt_messages tok system_prompt history user_input maxT ≠
        sysPart (PromptTemplate.format_messages system_prompt history user_input) →
      (build_prompt_messages tok system_prompt history user_input maxT).getLast? =
        some ⟨"user", user_input⟩) := by
  simp only [build_prompt_messages]
  obtain ⟨k, hk⟩ := trim_context_shape tok maxT
    (PromptTemplate.format_messages system_prompt history user_input)
  refine ⟨⟨k, hk⟩, ?_, ?_⟩
  · intro m hm hrole
    rw [hk]
    apply List.mem_append_left
    cases hmsgs : PromptTemplate.format_messages system_prompt history user_input with
    | nil =>
      rw [hmsgs] at hm
      simp at hm
    | cons a l =>
      rw [hmsgs] at hm
      rw [List.head?_cons] at hm
      have ham : a = m := by injection hm
      rw [sysPart, ham, if_pos hrole]
      exact List.mem_singleton_self m
  · intro hneq
    rw [hk] at hneq ⊢
    have hdrop :
        (restPart (PromptTemplate.format_messages system_prompt history user_input)).drop k
          ≠ [] := by
      intro h0
      rw [h0, List.append_nil] at hneq
      exact hneq rfl
    rw [List.getLast?_append_of_ne_nil _ hdrop, getLast?_drop_of_ne_nil _ _ hdrop]
    exact format_restPart_getLast system_prompt history user_input

/-- C6 counterexample: with token estimator `String.length`, a 30
character system prompt, empty history, new message `"yo"` and budget 3,
the builder drops the new message entirely: the output is the system
turn alone and the new user turn is not the final element of the output
(it does not even occur in it), refuting the claim that the output always
ends with the new message as its final user turn. -/
theorem buildPrompt_order_counterexample :
    build_prompt_messages String.length "bbbbbbbbbbbbbbbbbbbbbbbbbbbbbb" [] "yo" 3 =
      [⟨"system", "bbbbbbbbbbbbbbbbbbbbbbbbbbbbbb"⟩] ∧
    (⟨"user", "yo"⟩ : Msg) ∉
      build_prompt_messages String.length "bbbbbbbbbbbbbbbbbbbbbbbbbbbbbb" [] "yo" 3 := by
  refine ⟨?_, ?_⟩ <;> decide

/-! ### Similarity index (embedding endpoints of
src/window_aichat/api/server.py and EmbeddingItem of
src/window_aichat/db/models.py) -/

/-- One row of the `embedding_items` table.  `ns` models the `namespace`
column (a Lean keyword); the JSON-encoded `vector_json` column is
modelled by the decoded vector itself, with vector components as
rationals. -/
structure EmbeddingItem where
  user_id : String
  ns : String
  ref : String
  content : String
  vector : List ℚ
  dims : Nat
deriving Repr, DecidableEq

/-- Embedding of `EmbeddingItem.set_vector` (`models.py`, lines 94-96):
store the vector and set `dims` to its length. -/
def EmbeddingItem.set_vector (it : EmbeddingItem) (vec : List ℚ) : EmbeddingItem :=
  { it with vector := vec, dims := vec.length }

/-- An `HTTPException` raised by an endpoint: status code and detail. -/
structure HttpError where
  status : Nat
  detail : String
deriving Repr, DecidableEq

/-- The `(owner, namespace, ref)` key condition of the upsert query. -/
def embeddingKeyMatches (uid nsp ref : String) (it : EmbeddingItem) : Bool :=
  it.user_id == uid && it.ns == nsp && it.ref == ref

/-- Embedding of the `/api/embeddings/upsert` handler
(`server.py`, lines 433-455).  The authenticated user id and the stored
rows are passed explicitly; an `HTTPException` is an `Except.error`.
`scalar_one_or_none` raises (surfaced as a 500) when more than one row
matches.  Returns the new store and the status string. -/
def upsert_embedding (store : List EmbeddingItem) (uid nsp ref content : String)
    (vec : List ℚ) : Except HttpError (List EmbeddingItem × String) :=
  if vec = [] then .error ⟨400, "Empty vector"⟩
  else if (store.filter (embeddingKeyMatches uid nsp ref)).length = 0 then
    .ok (store ++ [EmbeddingItem.set_vector ⟨uid, nsp, ref, content, [], 0⟩ vec], "created")
  else if (store.filter (embeddingKeyMatches uid nsp ref)).length = 1 then
    .ok (store.map (fun it =>
      if embeddingKeyMatches uid nsp ref it then
        EmbeddingItem.set_vector { it with content := content } vec
      else it), "updated")
  else .error ⟨500, "Internal server error"⟩

/-- Embedding of `_cosine` (`server.py`, lines 422-430): `-1.0` when a
vector is empty or the lengths mismatch, `-1.0` when a norm is zero,
otherwise `dot / (norm * norm)`.  Machine floats are modelled as real
numbers. -/
noncomputable def _cosine (a b : List ℚ) : ℝ :=
  if a = [] ∨ b = [] ∨ a.length ≠ b.length then -1
  else if Real.sqrt (((a.map (fun x => x * x)).sum : ℚ) : ℝ) = 0 ∨
      Real.sqrt (((b.map (fun y => y * y)).sum : ℚ) : ℝ) = 0 then -1
  else ((((a.zip b).map (fun p => p.1 * p.2)).sum : ℚ) : ℝ) /
    (Real.sqrt (((a.map (fun x => x * x)).sum : ℚ) : ℝ) *
     Real.sqrt (((b.map (fun y => y * y)).sum : ℚ) : ℝ))

/-- The scored candidate list built by the `/api/embeddings/search`
handler (`server.py`, lines 461-469): rows of the owner and namespace,
skipping rows whose stored vector length differs from the query vector,
each paired with its cosine score. -/
noncomputable def searchScored (store : List EmbeddingItem) (uid nsp : String)
    (qvec : List ℚ) : List (EmbeddingItem × ℝ) :=
  ((store.filter (fun it => it.user_id == uid && it.ns == nsp)).filter
      (fun it => it.vector.length == qvec.length)).map
    (fun it => (it, _cosine qvec it.vector))

/-- The comparison used by `scored.sort(key=lambda t: t[1], reverse=True)`:
descending by score; Python's sort is stable, modelled by a stable
merge sort with this total comparison. -/
noncomputable def scoreDescBool (p q : EmbeddingItem × ℝ) : Bool :=
  @decide (q.2 ≤ p.2) (Classical.propDecidable _)

/-- One element of the search response. -/
structure SearchHit where
  ref : String
  content : String
  score : ℝ

/-- Embedding of the `/api/embeddings/search` handler (`server.py`,
lines 458-474): clamp `topK` to `max(1, min(topK, 50))`, score the
matching rows, sort by descending score (stable), truncate, and project
to `(ref, content, score)`. -/
noncomputable def search_embeddings (store : List EmbeddingItem) (uid nsp : String)
    (qvec : List ℚ) (topK : Int) : List SearchHit :=
  (((searchScored store uid nsp qvec).mergeSort scoreDescBool).take
      (max 1 (min topK 50)).toNat).map
    (fun p => ⟨p.1.ref, p.1.content, p.2⟩)

lemma scoreDescBool_iff (p q : EmbeddingItem × ℝ) :
    scoreDescBool p q = true ↔ q.2 ≤ p.2 := by
  rw [scoreDescBool]
  exact iff_of_eq (decide_eq_true_eq)

lemma scoreDescBool_trans (a b c : EmbeddingItem × ℝ) :
    scoreDescBool a b → scoreDescBool b c → scoreDescBool a c := by
  intro h1 h2
  rw [scoreDescBool_iff] at h1 h2 ⊢
  exact le_trans h2 h1

lemma scoreDescBool_total (a b : EmbeddingItem × ℝ) :
    scoreDescBool a b || scoreDescBool b a := by
  rcases le_total a.2 b.2 with h | h
  · have : scoreDescBool b a = true := (scoreDescBool_iff b a).mpr h
    rw [this, Bool.or_true]
  · have : scoreDescBool a b = true := (scoreDescBool_iff a b).mpr h
    rw [this, Bool.true_or]

lemma embeddingKeyMatches_iff (uid nsp ref : String) (it : EmbeddingItem) :
    embeddingKeyMatches uid nsp ref it = true ↔
      it.user_id = uid ∧ it.ns = nsp ∧ it.ref = ref := by
  rw [embeddingKeyMatches]
  simp [Bool.and_eq_true, and_assoc]

lemma keyMatches_upd (uid nsp ref c : String) (v : List ℚ) (it : EmbeddingItem) :
    embeddingKeyMatches uid nsp ref
        (EmbeddingItem.set_vector { it with content := c } v) =
      embeddingKeyMatches uid nsp ref it := by
  rw [embeddingKeyMatches, embeddingKeyMatches]
  rfl

lemma filter_key_map_upd (uid nsp ref c : String) (v : List ℚ) :
    ∀ l : List EmbeddingItem,
      (l.map (fun it => if embeddingKeyMatches uid nsp ref it then
          EmbeddingItem.set_vector { it with content := c } v else it)).filter
        (embeddingKeyMatches uid nsp ref) =
      (l.filter (embeddingKeyMatches uid nsp ref)).map (fun it =>
        EmbeddingItem.set_vector { it with content := c } v) := by
  intro l
  induction l with
  | nil => rfl
  | cons x l ih =>
    rw [List.map_cons]
    by_cases hx : embeddingKeyMatches uid nsp ref x = true
    · rw [if_pos hx]
      rw [List.filter_cons_of_pos (by rw [keyMatches_upd]; exact hx)]
      rw [List.filter_cons_of_pos hx, List.map_cons, ih]
    · rw [if_neg hx]
      rw [List.filter_cons_of_neg hx]
      conv_rhs => rw [List.filter_cons_of_neg hx]
      exact ih

lemma upsert_once_filter (store : List EmbeddingItem) (uid nsp ref c : String)
    (v : List ℚ) (hv : v ≠ [])
    (hkey : (store.filter (embeddingKeyMatches uid nsp ref)).length ≤ 1) :
    ∃ store1 status1, upsert_embedding store uid nsp ref c v = .ok (store1, status1) ∧
      store1.filter (embeddingKeyMatches uid nsp ref) = [⟨uid, nsp, ref, c, v, v.length⟩] := by
  have hcases : store.filter (embeddingKeyMatches uid nsp ref) = [] ∨
      ∃ x, store.filter (embeddingKeyMatches uid nsp ref) = [x] := by
    cases hf : store.filter (embeddingKeyMatches uid nsp ref) with
    | nil => exact Or.inl rfl
    | cons x xs =>
      right
      have hxs : xs = [] := by
        rw [hf, List.length_cons] at hkey
        rw [← List.length_eq_zero]
        omega
      exact ⟨x, by rw [hxs]⟩
  rcases hcases with hfil | ⟨x, hfil⟩
  · refine ⟨store ++ [EmbeddingItem.set_vector ⟨uid, nsp, ref, c, [], 0⟩ v], "created", ?_, ?_⟩
    · rw [upsert_embedding, if_neg hv, hfil]
      rfl
    · rw [List.filter_append, hfil, List.nil_append]
      rw [List.filter_cons_of_pos (by rw [embeddingKeyMatches]; simp [EmbeddingItem.set_vector])]
      rfl
  · have hx : embeddingKeyMatches uid nsp ref x = true := by
      have hmem : x ∈ store.filter (embeddingKeyMatches uid nsp ref) := by
        rw [hfil]; exact List.mem_cons_self x []
      exact List.of_mem_filter hmem
    refine ⟨store.map (fun it => if embeddingKeyMatches uid nsp ref it then
        EmbeddingItem.set_vector { it with content := c } v else it), "updated", ?_, ?_⟩
    · rw [upsert_embedding, if_neg hv, hfil]
      rfl
    · rw [filter_key_map_upd, hfil, List.map_cons, List.map_nil]
      rw [embeddingKeyMatches_iff] at hx
      obtain ⟨h1, h2, h3⟩ := hx
      cases x
      simp only [EmbeddingItem.set_vector] at h1 h2 h3 ⊢
      simp [h1, h2, h3]

/-- C9: upserting twice with the same `(owner, namespace, ref)` key
leaves exactly one record for that key, carrying the second upsert's
content and vector with `dims` equal to the vector's length (replace,
not duplicate); moreover after any successful upsert every record of the
new store either was already in the store or satisfies
`dims = length(vector)`. -/
theorem upsert_embedding_twice (store : List EmbeddingItem)
    (uid nsp ref c1 c2 : String) (v1 v2 : List ℚ)
    (h1 : v1 ≠ []) (h2 : v2 ≠ [])
    (hkey : (store.filter (embeddingKeyMatches uid nsp ref)).length ≤ 1) :
    (∃ store1 status1 store2 status2,
      upsert_embedding store uid nsp ref c1 v1 = .ok (store1, status1) ∧
      upsert_embedding store1 uid nsp ref c2 v2 = .ok (store2, status2) ∧
      store2.filter (embeddingKeyMatches uid nsp ref) =
        [⟨uid, nsp, ref, c2, v2, v2.length⟩]) ∧
    (∀ (st : List EmbeddingItem) (c : String) (v : List ℚ)
      (st2 : List EmbeddingItem) (status : String),
      upsert_embedding st uid nsp ref c v = .ok (st2, status) →
      ∀ it ∈ st2, it ∈ st ∨ it.dims = it.vector.length) := by
  constructor
  · obtain ⟨s1, t1, hu1, hf1⟩ := upsert_once_filter store uid nsp ref c1 v1 h1 hkey
    obtain ⟨s2, t2, hu2, hf2⟩ :=
      upsert_once_filter s1 uid nsp ref c2 v2 h2 (by rw [hf1]; simp)
    exact ⟨s1, t1, s2, t2, hu1, hu2, hf2⟩
  · intro st c v st2 status hok it hit
    rw [upsert_embedding] at hok
    by_cases hv : v = []
    · rw [if_pos hv] at hok
      exact absurd hok (by simp)
    · rw [if_neg hv] at hok
      by_cases hl0 : (st.filter (embeddingKeyMatches uid nsp ref)).length = 0
      · rw [if_pos hl0] at hok
        simp only [Except.ok.injEq, Prod.mk.injEq] at hok
        obtain ⟨hst, _⟩ := hok
        rw [← hst] at hit
        rw [List.mem_append] at hit
        rcases hit with hit | hit
        · exact Or.inl hit
        · rw [List.mem_singleton] at hit
          right
          rw [hit, EmbeddingItem.set_vector]
      · rw [if_neg hl0] at hok
        by_cases hl1 : (st.filter (embeddingKeyMatches uid nsp ref)).length = 1
        · rw [if_pos hl1] at hok
          simp only [Except.ok.injEq, Prod.mk.injEq] at hok
          obtain ⟨hst, _⟩ := hok
          rw [← hst] at hit
          rw [List.mem_map] at hit
          obtain ⟨x, hxst, hxeq⟩ := hit
          by_cases hx : embeddingKeyMatches uid nsp ref x = true
          · rw [if_pos hx] at hxeq
            right
            rw [← hxeq, EmbeddingItem.set_vector]
          · rw [if_neg hx] at hxeq
            exact Or.inl (hxeq ▸ hxst)
        · rw [if_neg hl1] at hok
          exact absurd hok (by simp)

/-- Witness for the C9 theorem: two upserts of the key
`("u", "docs", "a")` starting from the empty store, first with vector
`[1]`, then with vector `[2, 3]`. -/
theorem upsert_embedding_twice_witness :
    ((([] : List EmbeddingItem).filter (embeddingKeyMatches "u" "docs" "a")).length ≤ 1) ∧
    ((∃ store1 status1 store2 status2,
      upsert_embedding [] "u" "docs" "a" "c1" [1] = .ok (store1, status1) ∧
      upsert_embedding store1 "u" "docs" "a" "c2" [2, 3] = .ok (store2, status2) ∧
      store2.filter (embeddingKeyMatches "u" "docs" "a") =
        [⟨"u", "docs", "a", "c2", [2, 3], 2⟩]) ∧
    (∀ (st : List EmbeddingItem) (c : String) (v : List ℚ)
      (st2 : List EmbeddingItem) (status : String),
      upsert_embedding st "u" "docs" "a" c v = .ok (st2, status) →
      ∀ it ∈ st2, it ∈ st ∨ it.dims = it.vector.length)) :=
  ⟨by decide,
   upsert_embedding_twice [] "u" "docs" "a" "c1" "c2" [1] [2, 3]
     (by decide) (by decide) (by decide)⟩

/-- C10: upserting an empty vector fails with HTTP 400 and detail
"Empty vector" and produces no updated store (the handler raises before
touching the database, leaving the store unchanged); consequently a
store whose records all have non-empty vectors keeps that property
across every successful upsert, so every stored embedding record has a
non-empty vector. -/
theorem upsert_embedding_empty_vector (store : List EmbeddingItem)
    (uid nsp ref content : String) :
    upsert_embedding store uid nsp ref content [] = .error ⟨400, "Empty vector"⟩ ∧
    (∀ (c : String) (v : List ℚ) (st2 : List EmbeddingItem) (status : String),
      upsert_embedding store uid nsp ref c v = .ok (st2, status) →
      (∀ it ∈ store, it.vector ≠ []) → ∀ it ∈ st2, it.vector ≠ []) := by
  constructor
  · rw [upsert_embedding, if_pos rfl]
  · intro c v st2 status hok hinv it hit
    rw [upsert_embedding] at hok
    by_cases hv : v = []
    · rw [if_pos hv] at hok
      exact absurd hok (by simp)
    · rw [if_neg hv] at hok
      by_cases hl0 : (store.filter (embeddingKeyMatches uid nsp ref)).length = 0
      · rw [if_pos hl0] at hok
        simp only [Except.ok.injEq, Prod.mk.injEq] at hok
        obtain ⟨hst, _⟩ := hok
        rw [← hst] at hit
        rw [List.mem_append] at hit
        rcases hit with hit | hit
        · exact hinv it hit
        · rw [List.mem_singleton] at hit
          rw [hit]
          simpa [EmbeddingItem.set_vector] using hv
      · rw [if_neg hl0] at hok
        by_cases hl1 : (store.filter (embeddingKeyMatches uid nsp ref)).length = 1
        · rw [if_pos hl1] at hok
          simp only [Except.ok.injEq, Prod.mk.injEq] at hok
          obtain ⟨hst, _⟩ := hok
          rw [← hst] at hit
          rw [List.mem_map] at hit
          obtain ⟨x, hxst, hxeq⟩ := hit
          by_cases hx : embeddingKeyMatches uid nsp ref x = true
          · rw [if_pos hx] at hxeq
            rw [← hxeq]
            simpa [EmbeddingItem.set_vector] using hv
          · rw [if_neg hx] at hxeq
            rw [← hxeq]
            exact hinv x hxst
        · rw [if_neg hl1] at hok
          exact absurd hok (by simp)

lemma sq_sum_nonneg (l : List ℚ) : 0 ≤ (l.map (fun x => x * x)).sum := by
  apply List.sum_nonneg
  intro x hx
  rw [List.mem_map] at hx
  obtain ⟨y, _, hy⟩ := hx
  rw [← hy]
  exact mul_self_nonneg y

lemma searchScored_mem (store : List EmbeddingItem) (uid nsp : String) (qvec : List ℚ)
    (p : EmbeddingItem × ℝ) (hp : p ∈ searchScored store uid nsp qvec) :
    p.1 ∈ store ∧ p.1.user_id = uid ∧ p.1.ns = nsp ∧ p.1.vector.length = qvec.length ∧
      p.2 = _cosine qvec p.1.vector := by
  rw [searchScored, List.mem_map] at hp
  obtain ⟨it, hit, heq⟩ := hp
  have h2 := List.of_mem_filter hit
  have hit2 := List.mem_of_mem_filter hit
  have h3 := List.of_mem_filter hit2
  have hit3 := List.mem_of_mem_filter hit2
  rw [Bool.and_eq_true, beq_iff_eq, beq_iff_eq] at h3
  rw [beq_iff_eq] at h2
  rw [← heq]
  exact ⟨hit3, h3.1, h3.2, h2, rfl⟩

lemma mem_searchScored (store : List EmbeddingItem) (uid nsp : String) (qvec : List ℚ)
    (it : EmbeddingItem) (hit : it ∈ store) (h1 : it.user_id = uid) (h2 : it.ns = nsp)
    (h3 : it.vector.length = qvec.length) :
    (it, _cosine qvec it.vector) ∈ searchScored store uid nsp qvec := by
  rw [searchScored]
  apply List.mem_map_of_mem
  apply List.mem_filter.mpr
  refine ⟨List.mem_filter.mpr ⟨hit, ?_⟩, ?_⟩
  · rw [h1, h2]
    simp
  · rw [h3]
    simp

lemma search_embeddings_provenance (store : List EmbeddingItem) (uid nsp : String)
    (qvec : List ℚ) (topK : Int) :
    ∀ h ∈ search_embeddings store uid nsp qvec topK, ∃ it, it ∈ store ∧
      it.user_id = uid ∧ it.ns = nsp ∧ it.vector.length = qvec.length ∧
      h.ref = it.ref ∧ h.content = it.content ∧ h.score = _cosine qvec it.vector := by
  intro h hh
  rw [search_embeddings, List.mem_map] at hh
  obtain ⟨p, hp, hproj⟩ := hh
  have hp2 : p ∈ (searchScored store uid nsp qvec).mergeSort scoreDescBool :=
    (List.take_sublist _ _).subset hp
  rw [List.mem_mergeSort] at hp2
  obtain ⟨hmem, h1, h2, h3, h4⟩ := searchScored_mem store uid nsp qvec p hp2
  refine ⟨p.1, hmem, h1, h2, h3, ?_, ?_, ?_⟩
  · rw [← hproj]
  · rw [← hproj]
  · rw [← hproj]
    exact h4

lemma search_embeddings_sorted (store : List EmbeddingItem) (uid nsp : String)
    (qvec : List ℚ) (topK : Int) :
    List.Pairwise (fun u v => v.score ≤ u.score)
      (search_embeddings store uid nsp qvec topK) := by
  rw [search_embeddings, List.pairwise_map]
  have hs : List.Pairwise (fun p q : EmbeddingItem × ℝ => q.2 ≤ p.2)
      ((searchScored store uid nsp qvec).mergeSort scoreDescBool) := by
    have h := List.sorted_mergeSort scoreDescBool_trans scoreDescBool_total
      (searchScored store uid nsp qvec)
    exact h.imp (fun hab => (scoreDescBool_iff _ _).mp hab)
  exact (List.Pairwise.sublist (List.take_sublist _ _) hs).imp (fun hab => hab)

/-- C7 (amended claim, corrected from the spec): the cosine score equals
dot(a,b) / (norm(a) * norm(b)); it equals -1.0 whenever either vector is
empty, the lengths mismatch, or either norm is zero (a zero norm being
exactly a zero sum of squares).  Records with mismatched vector length
are excluded from search results, but zero-norm degenerate records are
NOT excluded: every stored record of the owner and namespace whose
vector length matches the query enters the ranking, carrying score -1.0
when degenerate, and no error is raised (scoring is a total function). -/
theorem cosine_spec :
    (∀ a b : List ℚ, (a = [] ∨ b = [] ∨ a.length ≠ b.length) → _cosine a b = -1) ∧
    (∀ a b : List ℚ, ¬ (a = [] ∨ b = [] ∨ a.length ≠ b.length) →
      ((a.map (fun x => x * x)).sum = 0 ∨ (b.map (fun y => y * y)).sum = 0) →
      _cosine a b = -1) ∧
    (∀ a b : List ℚ, ¬ (a = [] ∨ b = [] ∨ a.length ≠ b.length) →
      (a.map (fun x => x * x)).sum ≠ 0 → (b.map (fun y => y * y)).sum ≠ 0 →
      _cosine a b = ((((a.zip b).map (fun p => p.1 * p.2)).sum : ℚ) : ℝ) /
        (Real.sqrt (((a.map (fun x => x * x)).sum : ℚ) : ℝ) *
         Real.sqrt (((b.map (fun y => y * y)).sum : ℚ) : ℝ))) ∧
    (∀ (store : List EmbeddingItem) (uid nsp : String) (qvec : List ℚ) (topK : Int),
      ∀ h ∈ search_embeddings store uid nsp qvec topK, ∃ it, it ∈ store ∧
        h.ref = it.ref ∧ h.content = it.content ∧ it.vector.length = qvec.length) ∧
    (∀ (store : List EmbeddingItem) (uid nsp : String) (qvec : List ℚ)
      (it : EmbeddingItem), it ∈ store → it.user_id = uid → it.ns = nsp →
      it.vector.length = qvec.length →
      (it, _cosine qvec it.vector) ∈ searchScored store uid nsp qvec) := by
  refine ⟨?_, ?_, ?_, ?_, ?_⟩
  · intro a b h
    rw [_cosine, if_pos h]
  · intro a b hne h
    have hcond : Real.sqrt (((a.map (fun x => x * x)).sum : ℚ) : ℝ) = 0 ∨
        Real.sqrt (((b.map (fun y => y * y)).sum : ℚ) : ℝ) = 0 := by
      rcases h with h | h
      · left
        rw [h]
        simp
      · right
        rw [h]
        simp
    rw [_cosine, if_neg hne, if_pos hcond]
  · intro a b hne ha hb
    have hcond : ¬ (Real.sqrt (((a.map (fun x => x * x)).sum : ℚ) : ℝ) = 0 ∨
        Real.sqrt (((b.map (fun y => y * y)).sum : ℚ) : ℝ) = 0) := by
      rintro (h | h)
      · rw [Real.sqrt_eq_zero (by exact_mod_cast sq_sum_nonneg a)] at h
        exact ha (by exact_mod_cast h)
      · rw [Real.sqrt_eq_zero (by exact_mod_cast sq_sum_nonneg b)] at h
        exact hb (by exact_mod_cast h)
    rw [_cosine, if_neg hne, if_neg hcond]
  · intro store uid nsp qvec topK h hh
    obtain ⟨it, hmem, _, _, hlen, href, hcontent, _⟩ :=
      search_embeddings_provenance store uid nsp qvec topK h hh
    exact ⟨it, hmem, href, hcontent, hlen⟩
  · intro store uid nsp qvec it hit h1 h2 h3
    exact mem_searchScored store uid nsp qvec it hit h1 h2 h3

/-- C7 counterexample: the stored record with the zero vector `[0]`
(zero norm) is a degenerate case — its score against the query `[1]` is
-1.0 — yet it is not excluded from the search ranking: it appears in the
results, refuting the claim that records in the degenerate cases are
excluded from search ranking. -/
theorem cosine_exclusion_counterexample :
    _cosine [1] [(0 : ℚ)] = -1 ∧
    search_embeddings [⟨"u", "n", "r", "c", [0], 1⟩] "u" "n" [1] 8 =
      [⟨"r", "c", -1⟩] := by
  have hcos : _cosine [1] [(0 : ℚ)] = -1 := by
    rw [_cosine, if_neg (by simp), if_pos (by right; simp)]
  refine ⟨hcos, ?_⟩
  have hs : searchScored [⟨"u", "n", "r", "c", [0], 1⟩] "u" "n" [1] =
      [(⟨"u", "n", "r", "c", [0], 1⟩, _cosine [1] [(0 : ℚ)])] := by
    rw [searchScored]
    rw [List.filter_cons_of_pos (by simp)]
    rw [List.filter_nil]
    rw [List.filter_cons_of_pos (by simp)]
    rw [List.filter_nil, List.map_cons, List.map_nil]
  rw [search_embeddings, hs, List.mergeSort_singleton]
  rw [List.take_of_length_le (by simp)]
  rw [List.map_cons, List.map_nil, hcos]

/-- C8 (amended claim, corrected from the spec): search results are
sorted by non-increasing score; the result length is at most
`max 1 (min topK 50)` — hence at most `topK` whenever `topK ≥ 1`, and
never more than the cap 50, but a non-positive `topK` is clamped up to
1, not down to 0; every result comes from a stored record of the owner
and namespace whose vector length equals the query vector's length
(mismatched records never appear); and the results are the projection
of a prefix of a stable descending sort in which records with identical
scores keep their insertion order. -/
theorem search_embeddings_spec (store : List EmbeddingItem) (uid nsp : String)
    (qvec : List ℚ) (topK : Int) :
    List.Pairwise (fun u v => v.score ≤ u.score)
      (search_embeddings store uid nsp qvec topK) ∧
    (search_embeddings store uid nsp qvec topK).length ≤ (max 1 (min topK 50)).toNat ∧
    (search_embeddings store uid nsp qvec topK).length ≤ 50 ∧
    (∀ h ∈ search_embeddings store uid nsp qvec topK, ∃ it, it ∈ store ∧
      it.user_id = uid ∧ it.ns = nsp ∧ it.vector.length = qvec.length ∧
      h.ref = it.ref ∧ h.content = it.content ∧ h.score = _cosine qvec it.vector) ∧
    (∃ pre post, (searchScored store uid nsp qvec).mergeSort scoreDescBool = pre ++ post ∧
      search_embeddings store uid nsp qvec topK =
        pre.map (fun p => ⟨p.1.ref, p.1.content, p.2⟩)) ∧
    (∀ p q : EmbeddingItem × ℝ, List.Sublist [p, q] (searchScored store uid nsp qvec) →
      p.2 = q.2 →
      List.Sublist [p, q] ((searchScored store uid nsp qvec).mergeSort scoreDescBool)) := by
  refine ⟨search_embeddings_sorted store uid nsp qvec topK, ?_, ?_,
    search_embeddings_provenance store uid nsp qvec topK, ?_, ?_⟩
  · rw [search_embeddings, List.length_map]
    exact List.length_take_le _ _
  · rw [search_embeddings, List.length_map]
    refine le_trans (List.length_take_le _ _) ?_
    omega
  · exact ⟨_, _, (List.take_append_drop _ _).symm, rfl⟩
  · intro p q hsub htie
    exact List.pair_sublist_mergeSort scoreDescBool_trans scoreDescBool_total
      ((scoreDescBool_iff p q).mpr (le_of_eq htie.symm)) hsub

/-- C8 counterexample: with a single matching stored record and
`topK = 0`, the handler clamps `topK` up to `max(1, min(0, 50)) = 1` and
returns one result, so the claimed bound `length ≤ topK` fails at
`topK = 0`. -/
theorem search_embeddings_topK_counterexample :
    (search_embeddings [⟨"u", "n", "r", "c", [1], 1⟩] "u" "n" [1] 0).length = 1 ∧
    ¬ (((search_embeddings [⟨"u", "n", "r", "c", [1], 1⟩] "u" "n" [1] 0).length : Int)
        ≤ 0) := by
  have hlen : (search_embeddings [⟨"u", "n", "r", "c", [1], 1⟩] "u" "n" [1] 0).length = 1 := by
    rw [search_embeddings, List.length_map, List.length_take, List.length_mergeSort]
    have hone : (searchScored [⟨"u", "n", "r", "c", [1], 1⟩] "u" "n" [1]).length = 1 := by
      rw [searchScored]
      rw [List.filter_cons_of_pos (by simp)]
      rw [List.filter_nil]
      rw [List.filter_cons_of_pos (by simp)]
      rw [List.filter_nil, List.map_cons, List.map_nil, List.length_singleton]
    rw [hone]
    decide
  refine ⟨hlen, ?_⟩
  rw [hlen]
  decide

/-! ### Websocket chat handler (`websocket_chat` in
src/window_aichat/api/server.py, lines 483-582)

The handler loop is strictly sequential: after emitting `start` it
creates the stream task and immediately awaits it, so the connection
processes inbound messages one at a time and a whole stream (chunks and
its `done`/`error` terminal) runs to completion between two inbound
messages.  The model folds over the inbound message list.  Request ids
(`uuid4().hex` in the source) are modelled as consecutive naturals —
only freshness matters.  On the wire only the `start` event carries a
`requestId`; chunk, done and stream-error events are correlated to the
single active stream by adjacency, and the model tags them with the id
of the request whose stream emitted them.  A `cancelled` event carries
the id of the connection's current (possibly already finished) request,
or none when no request was ever started — the source emits it
unconditionally on every inbound `cancel`. -/

/-- Outcome of the background producer thread for one stream: the
provider iterator finishes normally (`done` marker) or raises
(`error` marker with code `stream_failed`); in both cases the fragments
produced before the outcome are relayed first. -/
inductive StreamOutcome
  | ok
  | fault
deriving Repr, DecidableEq

/-- An inbound `start` message together with the behaviour the model
invoker would exhibit for it: whether `get_ai_client` succeeds, the
fragments the stream yields, and how the producer ends. -/
structure StartPayload where
  message : String
  initOk : Bool
  chunks : List String
  outcome : StreamOutcome
deriving Repr, DecidableEq

/-- One inbound websocket message after JSON parsing. -/
inductive InMsg
  | invalidJson
  | unknownType (t : String)
  | cancel
  | start (p : StartPayload)
deriving Repr, DecidableEq

/-- One outbound websocket event.  `connError` covers the
connection-level error frames (`invalid_json`, `invalid_type`,
`empty_message`, `init_failed`); `streamError` is the per-request
`stream_failed` terminal relayed from the producer. -/
inductive Event
  | start (rid : Nat)
  | chunk (rid : Nat) (text : String)
  | done (rid : Nat)
  | streamError (rid : Nat)
  | cancelled (rid : Option Nat)
  | connError (code : String)
deriving Repr, DecidableEq

/-- Mutable handler state: the id generator and the current request
(the source's `current_cancel` / `current_task` pair, which is never
reset after a stream finishes). -/
structure ChatState where
  nextId : Nat
  current : Option Nat
deriving Repr, DecidableEq

/-- One iteration of the `websocket_chat` receive loop: the events sent
for the inbound message and the successor state. -/
def chatStep (s : ChatState) : InMsg → List Event × ChatState
  | .invalidJson => ([.connError "invalid_json"], s)
  | .cancel => ([.cancelled s.current], s)
  | .unknownType _ => ([.connError "invalid_type"], s)
  | .start p =>
    if p.message = "" then ([.connError "empty_message"], s)
    else if p.initOk = false then ([.connError "init_failed"], s)
    else
      ([Event.start s.nextId] ++ p.chunks.map (Event.chunk s.nextId) ++
        [match p.outcome with
         | .ok => Event.done s.nextId
         | .fault => Event.streamError s.nextId],
       ⟨s.nextId + 1, some s.nextId⟩)

/-- The receive loop of `websocket_chat` from a given state. -/
def chatRun (s : ChatState) : List InMsg → List Event
  | [] => []
  | m :: ms => (chatStep s m).1 ++ chatRun (chatStep s m).2 ms

/-- Embedding of `websocket_chat`: the full emitted event sequence of a
connection for a list of inbound messages, from the initial state. -/
def websocket_chat (msgs : List InMsg) : List Event :=
  chatRun ⟨0, none⟩ msgs

/-- The request id an event pertains to (none for connection-level
errors and for a `cancelled` with no request started). -/
def Event.ridTag : Event → Option Nat
  | .start r => some r
  | .chunk r _ => some r
  | .done r => some r
  | .streamError r => some r
  | .cancelled r => r
  | .connError _ => none

/-- The events of one `requestId` group. -/
def eventsFor (rid : Nat) (evs : List Event) : List Event :=
  evs.filter (fun e => e.ridTag == some rid)

def isChunkOf (rid : Nat) : Event → Bool
  | .chunk r _ => r == rid
  | _ => false

/-- A terminal event in the sense of the claim:
`Done`, `Cancelled` or `Error`. -/
def isTerminalOf (rid : Nat) : Event → Bool
  | .done r => r == rid
  | .streamError r => r == rid
  | .cancelled r => r == some rid
  | _ => false

/-- A natural terminal: `Done` or the stream `Error` (not `Cancelled`). -/
def isNatTerminalOf (rid : Nat) : Event → Bool
  | .done r => r == rid
  | .streamError r => r == rid
  | _ => false

/-- Checker for the grammar claimed by the spec on one group:
`Chunk* (Done|Cancelled|Error)` with nothing after the terminal. -/
def tailGrammar (rid : Nat) : List Event → Bool
  | [] => false
  | e :: rest =>
    if isChunkOf rid e then tailGrammar rid rest
    else if isTerminalOf rid e then rest.isEmpty
    else false

/-- Shape of one claimed group: empty, or exactly one `Start`, then
chunks, then exactly one terminal, with no event for the id after it. -/
def claimGroupShape (rid : Nat) : List Event → Bool
  | [] => true
  | Event.start r :: rest => r == rid && tailGrammar rid rest
  | _ => false

/-- Checker for the grammar claimed by the spec on one `requestId`
group of an event sequence. -/
def requestGrammar (rid : Nat) (evs : List Event) : Bool :=
  claimGroupShape rid (eventsFor rid evs)

/-- Checker for the shape the code actually guarantees on one group:
one `Start`, chunks, one natural terminal (`Done` or stream `Error`),
followed only by `Cancelled` events for the same id (stray cancels). -/
def strictTail (rid : Nat) : List Event → Bool
  | [] => false
  | e :: rest =>
    if isChunkOf rid e then strictTail rid rest
    else if isNatTerminalOf rid e then
      rest.all (fun x => x == Event.cancelled (some rid))
    else false

/-- Shape of one group as the code actually emits it:
empty, or `Start Chunk* (Done|Error) Cancelled*`. -/
def groupShape (rid : Nat) : List Event → Bool
  | [] => true
  | Event.start r :: rest => r == rid && strictTail rid rest
  | _ => false

/-- Amended per-group checker on an event sequence. -/
def amendedGroup (rid : Nat) (evs : List Event) : Bool :=
  groupShape rid (eventsFor rid evs)

/-- Scanning checker: at most one request open at a time, every stream
event inside its own request's span, every opened span closed by its
natural terminal before anything else happens. -/
def scanOk : Option Nat → List Event → Bool
  | none, [] => true
  | some _, [] => false
  | none, e :: rest =>
    match e with
    | .start r => scanOk (some r) rest
    | .chunk _ _ => false
    | .done _ => false
    | .streamError _ => false
    | .cancelled _ => scanOk none rest
    | .connError _ => scanOk none rest
  | some r, e :: rest =>
    match e with
    | .chunk r2 _ => r2 == r && scanOk (some r) rest
    | .done r2 => r2 == r && scanOk none rest
    | .streamError r2 => r2 == r && scanOk none rest
    | _ => false

/-- Every chunk is tagged with the most recently started request. -/
def chunksMatchCurrent : Option Nat → List Event → Bool
  | _, [] => true
  | _, Event.start r :: rest => chunksMatchCurrent (some r) rest
  | cur, Event.chunk r _ :: rest => cur == some r && chunksMatchCurrent cur rest
  | cur, _ :: rest => chunksMatchCurrent cur rest

/-- The request ids of the emitted `start` events, in order. -/
def startRids (evs : List Event) : List Nat :=
  evs.filterMap (fun e => match e with | .start r => some r | _ => none)

def isCancelledEvent : Event → Bool
  | .cancelled _ => true
  | _ => false

def isCancelMsg : InMsg → Bool
  | .cancel => true
  | _ => false

lemma eventsFor_append (rid : Nat) (l1 l2 : List Event) :
    eventsFor rid (l1 ++ l2) = eventsFor rid l1 ++ eventsFor rid l2 := by
  rw [eventsFor, eventsFor, eventsFor, List.filter_append]

lemma eventsFor_singleton (rid : Nat) (e : Event) :
    eventsFor rid [e] = if e.ridTag = some rid then [e] else [] := by
  rw [eventsFor]
  by_cases h : e.ridTag = some rid
  · rw [if_pos h, List.filter_cons_of_pos (by simp [h]), List.filter_nil]
  · rw [if_neg h, List.filter_cons_of_neg (by simp [h]), List.filter_nil]

lemma eventsFor_chunks (rid nid : Nat) (l : List String) :
    eventsFor rid (l.map (Event.chunk nid)) =
      if nid = rid then l.map (Event.chunk nid) else [] := by
  induction l with
  | nil => by_cases h : nid = rid <;> simp [eventsFor, h]
  | cons t l ih =>
    rw [List.map_cons]
    by_cases h : nid = rid
    · rw [if_pos h] at ih ⊢
      rw [eventsFor, List.filter_cons_of_pos (by simp [Event.ridTag, h])]
      rw [eventsFor] at ih
      rw [ih]
    · rw [if_neg h] at ih ⊢
      rw [eventsFor, List.filter_cons_of_neg (by simp [Event.ridTag, h])]
      rw [eventsFor] at ih
      exact ih

lemma scanOk_block (rid : Nat) (l : List String) (term : Event)
    (hterm : isNatTerminalOf rid term = true) (rest : List Event) :
    scanOk (some rid) (l.map (Event.chunk rid) ++ term :: rest) = scanOk none rest := by
  induction l with
  | nil =>
    rw [List.map_nil, List.nil_append]
    cases term <;> simp_all [scanOk, isNatTerminalOf]
  | cons t l ih =>
    rw [List.map_cons, List.cons_append, scanOk]
    simp [ih]

lemma scanOk_start (r : Nat) (rest : List Event) :
    scanOk none (Event.start r :: rest) = scanOk (some r) rest := rfl

lemma scanOk_chatRun : ∀ (msgs : List InMsg) (s : ChatState),
    scanOk none (chatRun s msgs) = true := by
  intro msgs
  induction msgs with
  | nil => intro s; rfl
  | cons m ms ih =>
    intro s
    rw [chatRun]
    cases m with
    | invalidJson => simpa [chatStep, scanOk] using ih (chatStep s .invalidJson).2
    | cancel => simpa [chatStep, scanOk] using ih (chatStep s .cancel).2
    | unknownType t => simpa [chatStep, scanOk] using ih (chatStep s (.unknownType t)).2
    | start p =>
      by_cases h1 : p.message = ""
      · simpa [chatStep, h1, scanOk] using ih (chatStep s (.start p)).2
      · by_cases h2 : p.initOk = false
        · simpa [chatStep, h1, h2, scanOk] using ih (chatStep s (.start p)).2
        · rw [chatStep, if_neg h1, if_neg h2]
          cases hoc : p.outcome with
          | ok =>
            simp only [List.append_assoc, List.singleton_append, List.cons_append,
              List.nil_append]
            rw [scanOk_start, scanOk_block s.nextId p.chunks (Event.done s.nextId)
              (by simp [isNatTerminalOf]) (chatRun ⟨s.nextId + 1, some s.nextId⟩ ms)]
            exact ih ⟨s.nextId + 1, some s.nextId⟩
          | fault =>
            simp only [List.append_assoc, List.singleton_append, List.cons_append,
              List.nil_append]
            rw [scanOk_start, scanOk_block s.nextId p.chunks (Event.streamError s.nextId)
              (by simp [isNatTerminalOf]) (chatRun ⟨s.nextId + 1, some s.nextId⟩ ms)]
            exact ih ⟨s.nextId + 1, some s.nextId⟩

lemma strictTail_block (rid : Nat) (l : List String) (term : Event)
    (hterm : isNatTerminalOf rid term = true) (cancels : List Event)
    (hc : cancels.all (fun x => x == Event.cancelled (some rid)) = true) :
    strictTail rid (l.map (Event.chunk rid) ++ term :: cancels) = true := by
  induction l with
  | nil =>
    rw [List.map_nil, List.nil_append, strictTail]
    have hnc : isChunkOf rid term = false := by
      cases term <;> simp_all [isChunkOf, isNatTerminalOf]
    rw [if_neg (by simp [hnc]), if_pos hterm]
    exact hc
  | cons t l ih =>
    rw [List.map_cons, List.cons_append, strictTail]
    rw [if_pos (by simp [isChunkOf])]
    exact ih

lemma chatRun_groups (rid : Nat) :
    ∀ (msgs : List InMsg) (s : ChatState),
      (∀ r, s.current = some r → r < s.nextId) →
      (s.nextId ≤ rid →
        eventsFor rid (chatRun s msgs) = [] ∨
        ∃ (l : List String) (term : Event) (cancels : List Event),
          isNatTerminalOf rid term = true ∧
          cancels.all (fun x => x == Event.cancelled (some rid)) = true ∧
          eventsFor rid (chatRun s msgs) =
            Event.start rid :: (l.map (Event.chunk rid) ++ term :: cancels)) ∧
      (s.current = some rid →
        (eventsFor rid (chatRun s msgs)).all
          (fun x => x == Event.cancelled (some rid)) = true) ∧
      (rid < s.nextId → s.current ≠ some rid →
        eventsFor rid (chatRun s msgs) = []) := by
  intro msgs
  induction msgs with
  | nil =>
    intro s hinv
    exact ⟨fun _ => Or.inl rfl, fun _ => rfl, fun _ _ => rfl⟩
  | cons m ms ih =>
    intro s hinv
    rw [chatRun]
    cases m with
    | invalidJson =>
      simp only [chatStep]
      rw [eventsFor_append, eventsFor_singleton, if_neg (by simp [Event.ridTag]),
        List.nil_append]
      exact ih s hinv
    | unknownType t =>
      simp only [chatStep]
      rw [eventsFor_append, eventsFor_singleton, if_neg (by simp [Event.ridTag]),
        List.nil_append]
      exact ih s hinv
    | cancel =>
      simp only [chatStep]
      by_cases hcur : s.current = some rid
      · rw [hcur]
        rw [eventsFor_append, eventsFor_singleton, if_pos (by simp [Event.ridTag]),
          List.singleton_append]
        refine ⟨?_, ?_, ?_⟩
        · intro hle
          exact absurd (hinv rid hcur) (by omega)
        · intro _
          rw [List.all_cons]
          simp only [beq_self_eq_true, Bool.true_and]
          exact (ih s hinv).2.1 hcur
        · intro _ hne
          exact absurd rfl hne
      · rw [eventsFor_append, eventsFor_singleton,
          if_neg (by simp only [Event.ridTag]; exact hcur), List.nil_append]
        exact ih s hinv
    | start p =>
      by_cases h1 : p.message = ""
      · simp only [chatStep, if_pos h1]
        rw [eventsFor_append, eventsFor_singleton, if_neg (by simp [Event.ridTag]),
          List.nil_append]
        exact ih s hinv
      · by_cases h2 : p.initOk = false
        · simp only [chatStep, if_neg h1, if_pos h2]
          rw [eventsFor_append, eventsFor_singleton, if_neg (by simp [Event.ridTag]),
            List.nil_append]
          exact ih s hinv
        · simp only [chatStep, if_neg h1, if_neg h2]
          have hinv2 : ∀ r, (⟨s.nextId + 1, some s.nextId⟩ : ChatState).current = some r →
              r < (⟨s.nextId + 1, some s.nextId⟩ : ChatState).nextId := by
            intro r hr2
            have hr3 : some s.nextId = some r := hr2
            injection hr3 with hr3
            show r < s.nextId + 1
            omega
          have IH := ih ⟨s.nextId + 1, some s.nextId⟩ hinv2
          cases hoc : p.outcome with
          | ok =>
            rw [eventsFor_append, eventsFor_append, eventsFor_append,
              eventsFor_singleton, eventsFor_singleton, eventsFor_chunks]
            by_cases hr : s.nextId = rid
            · subst hr
              rw [if_pos (by simp [Event.ridTag]), if_pos rfl,
                if_pos (by simp [Event.ridTag])]
              have hall := IH.2.1 rfl
              refine ⟨?_, ?_, ?_⟩
              · intro _
                right
                refine ⟨p.chunks, Event.done s.nextId,
                  eventsFor s.nextId (chatRun ⟨s.nextId + 1, some s.nextId⟩ ms),
                  by simp [isNatTerminalOf], hall, ?_⟩
                simp [List.append_assoc, List.singleton_append, List.cons_append]
              · intro hcur
                exact absurd (hinv s.nextId hcur) (lt_irrefl _)
              · intro hlt _
                exact absurd hlt (lt_irrefl _)
            · rw [if_neg (by simp only [Event.ridTag, Option.some.injEq]; exact hr),
                if_neg hr,
                if_neg (by simp only [Event.ridTag, Option.some.injEq]; exact hr)]
              simp only [List.nil_append, List.append_nil]
              refine ⟨?_, ?_, ?_⟩
              · intro hle
                refine IH.1 ?_
                show s.nextId + 1 ≤ rid
                omega
              · intro hcur
                have hlt := hinv rid hcur
                have hnil := IH.2.2
                  (by show rid < s.nextId + 1; omega)
                  (by
                    show some s.nextId ≠ some rid
                    intro hcontra
                    injection hcontra with hcontra
                    exact hr hcontra)
                rw [hnil]
                rfl
              · intro hlt hne
                refine IH.2.2 ?_ ?_
                · show rid < s.nextId + 1
                  omega
                · show some s.nextId ≠ some rid
                  intro hcontra
                  injection hcontra with hcontra
                  exact hr hcontra
          | fault =>
            rw [eventsFor_append, eventsFor_append, eventsFor_append,
              eventsFor_singleton, eventsFor_singleton, eventsFor_chunks]
            by_cases hr : s.nextId = rid
            · subst hr
              rw [if_pos (by simp [Event.ridTag]), if_pos rfl,
                if_pos (by simp [Event.ridTag])]
              have hall := IH.2.1 rfl
              refine ⟨?_, ?_, ?_⟩
              · intro _
                right
                refine ⟨p.chunks, Event.streamError s.nextId,
                  eventsFor s.nextId (chatRun ⟨s.nextId + 1, some s.nextId⟩ ms),
                  by simp [isNatTerminalOf], hall, ?_⟩
                simp [List.append_assoc, List.singleton_append, List.cons_append]
              · intro hcur
                exact absurd (hinv s.nextId hcur) (lt_irrefl _)
              · intro hlt _
                exact absurd hlt (lt_irrefl _)
            · rw [if_neg (by simp only [Event.ridTag, Option.some.injEq]; exact hr),
                if_neg hr,
                if_neg (by simp only [Event.ridTag, Option.some.injEq]; exact hr)]
              simp only [List.nil_append, List.append_nil]
              refine ⟨?_, ?_, ?_⟩
              · intro hle
                refine IH.1 ?_
                show s.nextId + 1 ≤ rid
                omega
              · intro hcur
                have hlt := hinv rid hcur
                have hnil := IH.2.2
                  (by show rid < s.nextId + 1; omega)
                  (by
                    show some s.nextId ≠ some rid
                    intro hcontra
                    injection hcontra with hcontra
                    exact hr hcontra)
                rw [hnil]
                rfl
              · intro hlt hne
                refine IH.2.2 ?_ ?_
                · show rid < s.nextId + 1
                  omega
                · show some s.nextId ≠ some rid
                  intro hcontra
                  injection hcontra with hcontra
                  exact hr hcontra

lemma chunksMatchCurrent_start (c : Option Nat) (r : Nat) (rest : List Event) :
    chunksMatchCurrent c (Event.start r :: rest) = chunksMatchCurrent (some r) rest := rfl

lemma chunksMatchCurrent_block (rid : Nat) (l : List String) (term : Event)
    (hterm : isNatTerminalOf rid term = true) (rest : List Event) :
    chunksMatchCurrent (some rid) (l.map (Event.chunk rid) ++ term :: rest) =
      chunksMatchCurrent (some rid) rest := by
  induction l with
  | nil =>
    rw [List.map_nil, List.nil_append]
    cases term <;> simp_all [chunksMatchCurrent, isNatTerminalOf]
  | cons t l ih =>
    rw [List.map_cons, List.cons_append]
    simp [chunksMatchCurrent, ih]

lemma chunksMatchCurrent_chatRun : ∀ (msgs : List InMsg) (s : ChatState) (c : Option Nat),
    chunksMatchCurrent c (chatRun s msgs) = true := by
  intro msgs
  induction msgs with
  | nil => intro s c; rfl
  | cons m ms ih =>
    intro s c
    rw [chatRun]
    cases m with
    | invalidJson =>
      simpa [chatStep, chunksMatchCurrent] using ih (chatStep s .invalidJson).2 c
    | cancel =>
      simpa [chatStep, chunksMatchCurrent] using ih (chatStep s .cancel).2 c
    | unknownType t =>
      simpa [chatStep, chunksMatchCurrent] using ih (chatStep s (.unknownType t)).2 c
    | start p =>
      by_cases h1 : p.message = ""
      · simpa [chatStep, h1, chunksMatchCurrent] using ih (chatStep s (.start p)).2 c
      · by_cases h2 : p.initOk = false
        · simpa [chatStep, h1, h2, chunksMatchCurrent] using ih (chatStep s (.start p)).2 c
        · rw [chatStep, if_neg h1, if_neg h2]
          cases hoc : p.outcome with
          | ok =>
            simp only [List.append_assoc, List.singleton_append, List.cons_append,
              List.nil_append]
            rw [chunksMatchCurrent_start, chunksMatchCurrent_block s.nextId p.chunks
              (Event.done s.nextId) (by simp [isNatTerminalOf])
              (chatRun ⟨s.nextId + 1, some s.nextId⟩ ms)]
            exact ih ⟨s.nextId + 1, some s.nextId⟩ (some s.nextId)
          | fault =>
            simp only [List.append_assoc, List.singleton_append, List.cons_append,
              List.nil_append]
            rw [chunksMatchCurrent_start, chunksMatchCurrent_block s.nextId p.chunks
              (Event.streamError s.nextId) (by simp [isNatTerminalOf])
              (chatRun ⟨s.nextId + 1, some s.nextId⟩ ms)]
            exact ih ⟨s.nextId + 1, some s.nextId⟩ (some s.nextId)

lemma startRids_append (l1 l2 : List Event) :
    startRids (l1 ++ l2) = startRids l1 ++ startRids l2 := by
  rw [startRids, startRids, startRids, List.filterMap_append]

lemma startRids_chunks (nid : Nat) (l : List String) :
    startRids (l.map (Event.chunk nid)) = [] := by
  induction l with
  | nil => rfl
  | cons t l ih =>
    rw [List.map_cons]
    rw [startRids] at ih ⊢
    rw [List.filterMap_cons]
    exact ih

lemma startRids_chatRun : ∀ (msgs : List InMsg) (s : ChatState),
    (startRids (chatRun s msgs)).Pairwise (fun a b => a < b) ∧
    ∀ r ∈ startRids (chatRun s msgs), s.nextId ≤ r := by
  intro msgs
  induction msgs with
  | nil =>
    intro s
    exact ⟨List.Pairwise.nil, fun r hr => by simp [startRids, chatRun] at hr⟩
  | cons m ms ih =>
    intro s
    rw [chatRun]
    cases m with
    | invalidJson =>
      rw [startRids_append]
      simpa [chatStep, startRids] using ih (chatStep s .invalidJson).2
    | cancel =>
      rw [startRids_append]
      simpa [chatStep, startRids] using ih (chatStep s .cancel).2
    | unknownType t =>
      rw [startRids_append]
      simpa [chatStep, startRids] using ih (chatStep s (.unknownType t)).2
    | start p =>
      rw [startRids_append]
      by_cases h1 : p.message = ""
      · simpa [chatStep, h1, startRids] using ih (chatStep s (.start p)).2
      · by_cases h2 : p.initOk = false
        · simpa [chatStep, h1, h2, startRids] using ih (chatStep s (.start p)).2
        · rw [chatStep, if_neg h1, if_neg h2]
          have hblk : startRids ([Event.start s.nextId] ++ p.chunks.map (Event.chunk s.nextId) ++
              [match p.outcome with
               | .ok => Event.done s.nextId
               | .fault => Event.streamError s.nextId]) = [s.nextId] := by
            rw [startRids_append, startRids_append, startRids_chunks]
            cases p.outcome <;> rfl
          rw [hblk]
          have IH := ih ⟨s.nextId + 1, some s.nextId⟩
          have hbound : ∀ r ∈ startRids (chatRun ⟨s.nextId + 1, some s.nextId⟩ ms),
              s.nextId + 1 ≤ r := IH.2
          constructor
          · rw [List.singleton_append]
            refine List.Pairwise.cons ?_ IH.1
            intro b hb
            have := hbound b hb
            omega
          · intro r hr
            rw [List.singleton_append, List.mem_cons] at hr
            rcases hr with hr | hr
            · omega
            · have := hbound r hr
              omega

lemma countP_cancelled_chunks (nid : Nat) (l : List String) :
    (l.map (Event.chunk nid)).countP isCancelledEvent = 0 := by
  induction l with
  | nil => rfl
  | cons t l ih =>
    rw [List.map_cons, List.countP_cons]
    simp [isCancelledEvent, ih]

lemma countP_cancelled_chatRun : ∀ (msgs : List InMsg) (s : ChatState),
    (chatRun s msgs).countP isCancelledEvent = msgs.countP isCancelMsg := by
  intro msgs
  induction msgs with
  | nil => intro s; rfl
  | cons m ms ih =>
    intro s
    rw [chatRun, List.countP_append, List.countP_cons, ih]
    cases m with
    | invalidJson =>
      have hblk : (chatStep s InMsg.invalidJson).1.countP isCancelledEvent = 0 := rfl
      have hmsg : isCancelMsg InMsg.invalidJson = false := rfl
      rw [hblk, hmsg]
      simp
    | cancel =>
      have hblk : (chatStep s InMsg.cancel).1.countP isCancelledEvent = 1 := rfl
      have hmsg : isCancelMsg InMsg.cancel = true := rfl
      rw [hblk, hmsg]
      simp [Nat.add_comm]
    | unknownType t =>
      have hblk : (chatStep s (InMsg.unknownType t)).1.countP isCancelledEvent = 0 := rfl
      have hmsg : isCancelMsg (InMsg.unknownType t) = false := rfl
      rw [hblk, hmsg]
      simp
    | start p =>
      have hmsg : isCancelMsg (InMsg.start p) = false := rfl
      rw [hmsg]
      have hblk : (chatStep s (InMsg.start p)).1.countP isCancelledEvent = 0 := by
        rw [chatStep]
        by_cases h1 : p.message = ""
        · rw [if_pos h1]
          rfl
        · rw [if_neg h1]
          by_cases h2 : p.initOk = false
          · rw [if_pos h2]
            rfl
          · rw [if_neg h2]
            rw [List.countP_append, List.countP_append, countP_cancelled_chunks]
            cases p.outcome <;> rfl
      rw [hblk]
      simp

lemma connError_codes_chatRun : ∀ (msgs : List InMsg) (s : ChatState) (e : Event),
    e ∈ chatRun s msgs → e ≠ Event.connError "rate_limited" := by
  intro msgs
  induction msgs with
  | nil => intro s e he; simp [chatRun] at he
  | cons m ms ih =>
    intro s e he
    rw [chatRun, List.mem_append] at he
    rcases he with he | he
    · cases m with
      | invalidJson =>
        simp only [chatStep, List.mem_singleton] at he
        rw [he]
        simp
      | cancel =>
        simp only [chatStep, List.mem_singleton] at he
        rw [he]
        simp
      | unknownType t =>
        simp only [chatStep, List.mem_singleton] at he
        rw [he]
        simp
      | start p =>
        by_cases h1 : p.message = ""
        · simp only [chatStep, if_pos h1, List.mem_singleton] at he
          rw [he]
          simp
        · by_cases h2 : p.initOk = false
          · simp only [chatStep, if_neg h1, if_pos h2, List.mem_singleton] at he
            rw [he]
            simp
          · simp only [chatStep, if_neg h1, if_neg h2, List.mem_append,
              List.mem_singleton, List.mem_map] at he
            rcases he with (he | ⟨x, _, he⟩) | he
            · rw [he]; simp
            · rw [← he]; simp
            · rw [he]
              cases p.outcome <;> simp
    · exact ih (chatStep s m).2 e he

/-- The HTTP rejection produced by `rate_limit_middleware`
(`server.py`, lines 117-131): status 429 with error code `rate_limited`
and the reset hint.  Websockets never pass through this middleware
(it is registered for the `http` protocol only). -/
structure RateLimitResponse where
  status : Nat
  code : String
  reset_in : Int
deriving Repr, DecidableEq

/-- Embedding of `rate_limit_middleware`: consult the limiter for the
caller's key; on rejection return the 429 `rate_limited` response,
otherwise pass the request through (`none`). -/
def rate_limit_middleware (cfg : RateLimitConfig) (dq : List Int) (now : Int) :
    Option RateLimitResponse × List Int :=
  if (RateLimiter.allow cfg dq now).1.admitted then
    (none, (RateLimiter.allow cfg dq now).2)
  else
    (some ⟨429, "rate_limited", (RateLimiter.allow cfg dq now).1.reset_in⟩,
     (RateLimiter.allow cfg dq now).2)

/-- C1 (amended claim, corrected from the spec): for every inbound
sequence, at most one request group is open at a time — no stream event
occurs outside its request's contiguous span, and every opened span is
closed by its natural `Done` or `Error` terminal, also when the
background producer faults, so the consumer loop always terminates —
and each `requestId` group is empty or exactly one `Start`, zero or
more `Chunk`s, exactly one `Done`/`Error` terminal, followed only by
stray `Cancelled` events: the handler emits a `Cancelled` for every
inbound cancel message even after a request's terminal, so `Cancelled`
events can follow a group's terminal (violating the original claim)
but never precede it and never replace it. -/
theorem websocket_chat_grammar (msgs : List InMsg) :
    scanOk none (websocket_chat msgs) = true ∧
    ∀ rid, amendedGroup rid (websocket_chat msgs) = true := by
  constructor
  · exact scanOk_chatRun msgs ⟨0, none⟩
  · intro rid
    have hinv : ∀ r, (⟨0, none⟩ : ChatState).current = some r →
        r < (⟨0, none⟩ : ChatState).nextId := by
      intro r hr
      have hr2 : (none : Option Nat) = some r := hr
      exact absurd hr2 (by simp)
    have h := (chatRun_groups rid msgs ⟨0, none⟩ hinv).1 (Nat.zero_le rid)
    rcases h with h | ⟨l, term, cancels, hterm, hcancels, heq⟩
    · rw [websocket_chat, amendedGroup, h]
      rfl
    · rw [websocket_chat, amendedGroup, heq, groupShape]
      rw [strictTail_block rid l term hterm cancels hcancels]
      simp

/-- C1 counterexample: for the inbound sequence start-then-cancel, the
stream of request 0 completes with `Done` and the subsequent cancel
message still emits a `Cancelled` attributed to the connection's
current (already finished) request, so request 0 observes an event
after its terminal and two terminal events, refuting the claimed
grammar `Start Chunk* (Done|Cancelled|Error)` with nothing after the
terminal. -/
theorem websocket_chat_grammar_counterexample :
    websocket_chat [InMsg.start ⟨"hi", true, [], StreamOutcome.ok⟩, InMsg.cancel] =
      [Event.start 0, Event.done 0, Event.cancelled (some 0)] ∧
    requestGrammar 0
      (websocket_chat [InMsg.start ⟨"hi", true, [], StreamOutcome.ok⟩, InMsg.cancel]) =
      false := by
  refine ⟨?_, ?_⟩ <;> decide

/-- C2 (amended claim, corrected from the spec): a new start message is
only processed after the previous request's stream has fully run to its
natural `Done`/`Error` terminal (the handler awaits the stream task
inline), so all of A's events precede `Start{B}` and no `Chunk` of A
appears after `Start{B}` — every chunk belongs to the most recently
started request; superseding emits no `Cancelled` event at all (the
emitted `Cancelled` events correspond one-to-one to inbound cancel
messages), and request ids are emitted in strictly increasing order. -/
theorem websocket_chat_supersede (msgs : List InMsg) :
    (websocket_chat msgs).countP isCancelledEvent = msgs.countP isCancelMsg ∧
    chunksMatchCurrent none (websocket_chat msgs) = true ∧
    (startRids (websocket_chat msgs)).Pairwise (fun a b => a < b) ∧
    scanOk none (websocket_chat msgs) = true :=
  ⟨countP_cancelled_chatRun msgs ⟨0, none⟩,
   chunksMatchCurrent_chatRun msgs ⟨0, none⟩ none,
   (startRids_chatRun msgs ⟨0, none⟩).1,
   scanOk_chatRun msgs ⟨0, none⟩⟩

/-- C2 counterexample: sending start B right after start A yields
`Start{0} Done{0} Start{1} Done{1}` with no `Cancelled` event anywhere:
A runs to its natural completion and no `Cancelled{A}` is emitted
before `Start{B}`, refuting the claimed implicit cancel-then-start. -/
theorem websocket_chat_supersede_counterexample :
    websocket_chat [InMsg.start ⟨"a", true, [], StreamOutcome.ok⟩,
        InMsg.start ⟨"b", true, [], StreamOutcome.ok⟩] =
      [Event.start 0, Event.done 0, Event.start 1, Event.done 1] ∧
    (websocket_chat [InMsg.start ⟨"a", true, [], StreamOutcome.ok⟩,
        InMsg.start ⟨"b", true, [], StreamOutcome.ok⟩]).countP isCancelledEvent = 0 := by
  refine ⟨?_, ?_⟩ <;> decide

/-- C3 (amended claim, corrected from the spec): inbound websocket
start messages never consult the rate limiter — the websocket handler
emits no event with code `rate_limited` on any inbound sequence and
admits every well-formed start regardless of the caller's rate state.
Admission control exists only as the HTTP middleware, which returns the
429 `rate_limited` response exactly when the limiter rejects the key
and passes the request through otherwise, never touching any streaming
session. -/
theorem websocket_rate_limit (msgs : List InMsg) (cfg : RateLimitConfig)
    (dq : List Int) (now : Int) :
    (∀ e ∈ websocket_chat msgs, e ≠ Event.connError "rate_limited") ∧
    rate_limit_middleware cfg dq now =
      (if (RateLimiter.allow cfg dq now).1.admitted then none
       else some ⟨429, "rate_limited", (RateLimiter.allow cfg dq now).1.reset_in⟩,
       (RateLimiter.allow cfg dq now).2) := by
  constructor
  · intro e he
    exact connError_codes_chatRun msgs ⟨0, none⟩ e he
  · rw [rate_limit_middleware]
    by_cases h : (RateLimiter.allow cfg dq now).1.admitted = true
    · rw [if_pos h, if_pos h]
    · rw [if_neg h, if_neg h]

/-- C3 counterexample: with a saturated limiter state (window 60 s,
maximum 1 request, one timestamp already in the window) the limiter
rejects the key, yet the websocket gateway still starts the streaming
session for an inbound start message — it emits `Start` and `Done` and
no `rate_limited` error — refuting the claim that a rejected key makes
the gateway emit `Error(rate_limited)` and leave the session
untouched. -/
theorem websocket_rate_limit_counterexample :
    (RateLimiter.allow ⟨60, 1⟩ [0] 0).1.admitted = false ∧
    websocket_chat [InMsg.start ⟨"hi", true, [], StreamOutcome.ok⟩] =
      [Event.start 0, Event.done 0] ∧
    Event.connError "rate_limited" ∉
      websocket_chat [InMsg.start ⟨"hi", true, [], StreamOutcome.ok⟩] ∧
    Event.start 0 ∈ websocket_chat [InMsg.start ⟨"hi", true, [], StreamOutcome.ok⟩] := by
  refine ⟨?_, ?_, ?_, ?_⟩ <;> decide
